import Mathlib

/-!
Shallow embedding of `gnn_tools/LinkPredictionDataset.py`.

The module under study has three parts:
* an edge codec: `pairing(r, c) = min(r, c) + 1j * max(r, c)` and its inverse
  `depairing(v) = (real(v), imag(v))`.  A complex number with natural-number
  components is exactly a pair of naturals, so the key type here is
  `Nat × Nat` and `pairing` returns the pair `(min, max)`.
* `TrainTestEdgeSplitter.fit`, which enumerates the undirected edge set of the
  input adjacency matrix through the codec, computes a spanning tree, checks
  that enough non-tree edges exist, draws the test set from the non-tree edges
  and keeps the complement as the train set.
* `NegativeEdgeSampler.sampling`, a bounded accept/reject loop around an
  external node-pair source, with a resample-with-replacement padding step.

Sources of randomness and the external node-pair source are modelled as
explicit oracle parameters (`test_choice`, `draw`, `padIds`, `source_nodes`);
theorems constrain them exactly by the documented numpy/sampler contracts
(a draw of `k` items without replacement from `s` is a subset of `s` of
cardinality `k`, the pair source returns one candidate per center node, and
`np.random.choice(n, size=m)` returns `m` indices below `n`).
-/

namespace GnnTools

/-- Embedding of `pairing(r, c) = np.minimum(r, c) + 1j * np.maximum(r, c)`
(line 304).  The complex key `a + b*1j` with natural components is represented
as the pair `(a, b)`. -/
def pairing (r c : Nat) : Nat × Nat :=
  (min r c, max r c)

/-- Embedding of `depairing(v) = (np.real(v).astype(int), np.imag(v).astype(int))`
(line 308): the real and imaginary components of the key. -/
def depairing (v : Nat × Nat) : Nat × Nat :=
  (v.1, v.2)

/-- `np.unique(pairing(r, c))` applied to a coordinate list `(r, c)` coming from
`sparse.find`: the set of canonical edge keys of the listed entries. -/
def edgeKeys (l : List (Nat × Nat)) : Finset (Nat × Nat) :=
  (l.map fun p => pairing p.1 p.2).toFinset

/-- The two output fields set by `TrainTestEdgeSplitter.fit`
(`self.test_edges_`, `self.train_edges_`, lines 183-184), kept as key sets. -/
structure SplitResult where
  test_edges_ : Finset (Nat × Nat)
  train_edges_ : Finset (Nat × Nat)
deriving DecidableEq

/-- The message of the exception raised at lines 171-173. -/
def splitErrorMsg : String :=
  "Cannot remove edges by keeping the connectedness. Decrease the `fraction` parameter"

/-- Embedding of `TrainTestEdgeSplitter.fit` (lines 155-185).
`findA` is the coordinate list produced by `sparse.find(A)`;
`findMST` is the coordinate list of the matrix returned by
`csgraph.minimum_spanning_tree(A + A.T)`;
`test_choice` stands for the random draw
`np.random.choice(remained_edge_set, n_edge_removal, replace=False)` — theorems
constrain it to be a subset of the removable set of the requested cardinality.
`int(len(edges) * fraction)` truncates a nonnegative product, i.e. takes the
floor, here computed over exact rationals. -/
def TrainTestEdgeSplitter.fit (fraction : ℚ) (findA findMST : List (Nat × Nat))
    (test_choice : Finset (Nat × Nat)) : Except String SplitResult :=
  let edges := edgeKeys findA
  let mst_edges := edgeKeys findMST
  let remained_edge_set := edges \ mst_edges
  let n_edge_removal := ⌊fraction * (edges.card : ℚ)⌋.toNat
  if remained_edge_set.card < n_edge_removal then
    Except.error splitErrorMsg
  else
    Except.ok { test_edges_ := test_choice, train_edges_ := edges \ test_choice }

/-- Undirected adjacency induced by a set of edge keys. -/
def adjacent (E : Finset (Nat × Nat)) (u v : Nat) : Prop :=
  (u, v) ∈ E ∨ (v, u) ∈ E

instance (E : Finset (Nat × Nat)) (u v : Nat) : Decidable (adjacent E u v) := by
  unfold adjacent; infer_instance

/-- Connectivity in the undirected graph given by a set of edge keys. -/
def Reachable (E : Finset (Nat × Nat)) : Nat → Nat → Prop :=
  Relation.ReflTransGen (adjacent E)

/-- A node incident to at least one edge of `E`. -/
def IncidentTo (E : Finset (Nat × Nat)) (u : Nat) : Prop :=
  ∃ v, adjacent E u v

/-- The per-candidate rejection test of `NegativeEdgeSampler.sampling`
(lines 259-281): a candidate `(s, t)` is rejected when its key is an existing
edge, or is a held-out test edge, or it is a self loop, or — when duplicates
are disallowed — its key already occurred earlier in the current batch
(`prefixKeys`) or in a previous round (`acc`). -/
def candReject (edge_indices : Finset (Nat × Nat)) (testKeys : Option (List (Nat × Nat)))
    (dup : Bool) (acc prefixKeys : List (Nat × Nat)) (s t : Nat) : Bool :=
  let k := pairing s t
  decide (k ∈ edge_indices) ||
    (match testKeys with
     | some tk => decide (k ∈ tk)
     | none => false) ||
    decide (s = t) ||
    (!dup && (decide (k ∈ prefixKeys) || decide (k ∈ acc)))

/-- One batch of the accept/reject round (lines 251-288): the input list pairs
each candidate `(s, t)` with its center node; the result is the list of
accepted keys (appended to the accumulator by the caller, line 285) and the
list of center nodes whose candidate was rejected (`source_nodes[reject]`,
line 288). -/
def batchFilter (E : Finset (Nat × Nat)) (T : Option (List (Nat × Nat))) (dup : Bool)
    (acc : List (Nat × Nat)) :
    List ((Nat × Nat) × Nat) → List (Nat × Nat) → List (Nat × Nat) × List Nat
  | [], _ => ([], [])
  | cs :: rest, prefixKeys =>
    let k := pairing cs.1.1 cs.1.2
    let tail := batchFilter E T dup acc rest (prefixKeys ++ [k])
    if candReject E T dup acc prefixKeys cs.1.1 cs.1.2 then
      (tail.1, cs.2 :: tail.2)
    else
      (k :: tail.1, tail.2)

/-- The retry loop of `NegativeEdgeSampler.sampling` (lines 240-294):
`while (n_sampled < size) and (n_iters < max_iters)` with `max_iters = 30`,
modelled with `fuel = max_iters - n_iters`.  `draw` is the external node-pair
source call `self.sampler.sampling(center_nodes=source_nodes)`, indexed by the
round counter. -/
def samplingLoop (E : Finset (Nat × Nat)) (T : Option (List (Nat × Nat))) (dup : Bool)
    (draw : Nat → List Nat → List (Nat × Nat)) (size : Nat) :
    Nat → Nat → List (Nat × Nat) → List Nat → List (Nat × Nat)
  | _, 0, acc, _ => acc
  | n_iters, fuel + 1, acc, source_nodes =>
    if acc.length < size then
      let step := batchFilter E T dup acc ((draw n_iters source_nodes).zip source_nodes) []
      samplingLoop E T dup draw size (n_iters + 1) fuel (acc ++ step.1) step.2
    else acc

/-- `test_edges = pairing(*test_edges)` (line 247): the optional exclusion list
converted to keys. -/
def testEdgeKeys (test_edges : Option (List (Nat × Nat))) : Option (List (Nat × Nat)) :=
  test_edges.map fun l => l.map fun p => pairing p.1 p.2

/-- Embedding of `NegativeEdgeSampler.sampling` (lines 214-301) on the
non-conditioned path taken by every shipped sampler variant.
`edge_indices` is the fitted key set (line 211), `source_nodes` the output of
`self.sampler.sampling_source_nodes(size=size)` (line 238), `draw` the
node-pair source, and `padIds` the random draw
`np.random.choice(len(neg_src), size - len(neg_src), replace=True)` of
line 298.  `np.random.choice` raises when asked for a positive number of
samples from an empty range, hence the `none` branch; the returned pairs are
the depaired keys, which under this codec are the keys themselves. -/
def NegativeEdgeSampler.sampling (edge_indices : Finset (Nat × Nat)) (dup : Bool)
    (size : Nat) (test_edges : Option (List (Nat × Nat))) (source_nodes : List Nat)
    (draw : Nat → List Nat → List (Nat × Nat)) (padIds : Nat → Nat → List Nat) :
    Option (List (Nat × Nat)) :=
  let acc := samplingLoop edge_indices (testEdgeKeys test_edges) dup draw size 0 30 [] source_nodes
  if acc.length < size then
    if acc.length = 0 then none
    else some (acc ++ (padIds acc.length (size - acc.length)).map fun i => acc.getD i (0, 0))
  else some acc

/-- A Python exception value. -/
inductive PyExc where
  | valueError : String → PyExc
deriving DecidableEq

/-- Embedding of the entry validation of `NegativeEdgeSampler.sampling`
(lines 226-232).  Each `if` body is the bare expression statement
`ValueError(...)`: it constructs the exception value — collected here in the
first component — but never raises it, so control always proceeds
(`Except.ok`). -/
def samplingEntryCheck (conditionedOnSource : Bool) (sizeArg : Option Nat)
    (sourceNodesArg : Option (List Nat)) : List PyExc × Except PyExc Unit :=
  let constructed :=
    (if conditionedOnSource = true ∧ sourceNodesArg = none then
      [PyExc.valueError "When `conditionedOnSource=True`, source nodes must be specified"]
     else []) ++
    (if conditionedOnSource = false ∧ sizeArg = none then
      [PyExc.valueError "When `conditionedOnSource=False`, size must be specified"]
     else [])
  (constructed, Except.ok ())

/-- Coordinate list of `sparse.find` on the adjacency matrix of the triangle
graph on `{0, 1, 2}` (both orientations of each edge), used to instantiate the
splitter theorems on a concrete connected input. -/
def wFindA : List (Nat × Nat) :=
  [(0, 1), (1, 0), (0, 2), (2, 0), (1, 2), (2, 1)]

/-- Coordinate list of a spanning tree matrix of the triangle graph. -/
def wFindMST : List (Nat × Nat) :=
  [(0, 1), (0, 2)]

/-! ## General lemmas about the embedding -/

theorem pairing_fst_le_snd (r c : Nat) : (pairing r c).1 ≤ (pairing r c).2 :=
  min_le_max

theorem pairing_fst_ne_snd {r c : Nat} (h : r ≠ c) : (pairing r c).1 ≠ (pairing r c).2 := by
  unfold pairing
  intro hmin
  rcases le_total r c with hrc | hcr
  · simp [min_eq_left hrc, max_eq_right hrc] at hmin
    exact h hmin
  · simp [min_eq_right hcr, max_eq_left hcr] at hmin
    exact h hmin.symm

theorem pairing_of_canonical {p : Nat × Nat} (h : p.1 ≤ p.2) : pairing p.1 p.2 = p := by
  unfold pairing
  rcases p with ⟨a, b⟩
  simp_all [min_eq_left, max_eq_right]

theorem mem_edgeKeys_canonical {l : List (Nat × Nat)} {p : Nat × Nat}
    (h : p ∈ edgeKeys l) : p.1 ≤ p.2 := by
  unfold edgeKeys at h
  rw [List.mem_toFinset, List.mem_map] at h
  obtain ⟨q, _, rfl⟩ := h
  exact pairing_fst_le_snd q.1 q.2

theorem fit_eq_of_floor (fraction : ℚ) (findA findMST : List (Nat × Nat))
    (test_choice : Finset (Nat × Nat)) (n : Nat)
    (hn : (⌊fraction * ((edgeKeys findA).card : ℚ)⌋ : ℤ).toNat = n) :
    TrainTestEdgeSplitter.fit fraction findA findMST test_choice =
      if (edgeKeys findA \ edgeKeys findMST).card < n then Except.error splitErrorMsg
      else Except.ok ⟨test_choice, edgeKeys findA \ test_choice⟩ := by
  simp only [TrainTestEdgeSplitter.fit]
  rw [hn]

theorem fit_ok_elim {fraction : ℚ} {findA findMST : List (Nat × Nat)}
    {test_choice : Finset (Nat × Nat)} {res : SplitResult}
    (h : TrainTestEdgeSplitter.fit fraction findA findMST test_choice = Except.ok res) :
    res.test_edges_ = test_choice ∧ res.train_edges_ = edgeKeys findA \ test_choice := by
  simp only [TrainTestEdgeSplitter.fit] at h
  split at h
  · exact absurd h (by simp)
  · have h2 : (⟨test_choice, edgeKeys findA \ test_choice⟩ : SplitResult) = res :=
      Except.ok.inj h
    rw [← h2]
    exact ⟨rfl, rfl⟩

theorem adjacent_symm {E : Finset (Nat × Nat)} {u v : Nat}
    (h : adjacent E u v) : adjacent E v u :=
  h.symm

theorem adjacent_mono {E F : Finset (Nat × Nat)} (hEF : E ⊆ F) {u v : Nat}
    (h : adjacent E u v) : adjacent F u v := by
  rcases h with hm | hm
  · exact Or.inl (hEF hm)
  · exact Or.inr (hEF hm)

theorem reachable_mono {E F : Finset (Nat × Nat)} (hEF : E ⊆ F) {u v : Nat}
    (h : Reachable E u v) : Reachable F u v :=
  Relation.ReflTransGen.mono (fun _ _ hab => adjacent_mono hEF hab) h

theorem reachable_symm {E : Finset (Nat × Nat)} {u v : Nat}
    (h : Reachable E u v) : Reachable E v u :=
  Relation.ReflTransGen.symmetric (fun _ _ hab => adjacent_symm hab) h

theorem reachable_of_spanning {E T : Finset (Nat × Nat)}
    (hspan : ∀ p ∈ E, Reachable T p.1 p.2) {u v : Nat}
    (h : Reachable E u v) : Reachable T u v := by
  induction h with
  | refl => exact Relation.ReflTransGen.refl
  | tail _ hbc ih =>
    refine ih.trans ?_
    rcases hbc with hm | hm
    · exact hspan _ hm
    · exact reachable_symm (hspan _ hm)

theorem candReject_eq_false {E : Finset (Nat × Nat)} {T : Option (List (Nat × Nat))}
    {dup : Bool} {acc pk : List (Nat × Nat)} {s t : Nat}
    (h : candReject E T dup acc pk s t = false) :
    pairing s t ∉ E ∧ (∀ tk, T = some tk → pairing s t ∉ tk) ∧ s ≠ t ∧
      (dup = false → pairing s t ∉ pk ∧ pairing s t ∉ acc) := by
  simp only [candReject, Bool.or_eq_false_iff] at h
  obtain ⟨⟨⟨hE, hT⟩, hst⟩, hdup⟩ := h
  refine ⟨by simpa using hE, ?_, by simpa using hst, ?_⟩
  · intro tk htk
    subst htk
    simpa using hT
  · intro hd
    subst hd
    simp only [Bool.not_false, Bool.true_and, Bool.or_eq_false_iff] at hdup
    exact ⟨by simpa using hdup.1, by simpa using hdup.2⟩

theorem batchFilter_valid {E : Finset (Nat × Nat)} {T : Option (List (Nat × Nat))}
    {dup : Bool} {acc : List (Nat × Nat)} :
    ∀ (elems : List ((Nat × Nat) × Nat)) (pk : List (Nat × Nat)) (k : Nat × Nat),
      k ∈ (batchFilter E T dup acc elems pk).1 →
      k ∉ E ∧ (∀ tk, T = some tk → k ∉ tk) ∧ k.1 ≠ k.2 ∧ k.1 ≤ k.2 := by
  intro elems
  induction elems with
  | nil =>
    intro pk k hk
    simp [batchFilter] at hk
  | cons cs rest ih =>
    intro pk k hk
    simp only [batchFilter] at hk
    split at hk
    · exact ih _ k hk
    · rcases List.mem_cons.mp hk with rfl | hk2
      · next hrej =>
        obtain ⟨hE, hT, hst, _⟩ := candReject_eq_false (Bool.eq_false_iff.mpr hrej)
        exact ⟨hE, hT, pairing_fst_ne_snd hst, pairing_fst_le_snd _ _⟩
      · exact ih _ k hk2

theorem batchFilter_nodup {E : Finset (Nat × Nat)} {T : Option (List (Nat × Nat))}
    {acc : List (Nat × Nat)} :
    ∀ (elems : List ((Nat × Nat) × Nat)) (pk : List (Nat × Nat)),
      (batchFilter E T false acc elems pk).1.Nodup ∧
      ∀ k ∈ (batchFilter E T false acc elems pk).1, k ∉ pk ∧ k ∉ acc := by
  intro elems
  induction elems with
  | nil =>
    intro pk
    simp [batchFilter]
  | cons cs rest ih =>
    intro pk
    simp only [batchFilter]
    split
    · next hrej =>
      refine ⟨(ih _).1, fun k hk => ?_⟩
      have hmem := (ih (pk ++ [pairing cs.1.1 cs.1.2])).2 k hk
      exact ⟨fun hpk => hmem.1 (List.mem_append_left _ hpk), hmem.2⟩
    · next hrej =>
      obtain ⟨_, _, _, hdup⟩ := candReject_eq_false (Bool.eq_false_iff.mpr hrej)
      have hd := hdup rfl
      have ihp := ih (pk ++ [pairing cs.1.1 cs.1.2])
      constructor
      · refine List.nodup_cons.mpr ⟨fun hmem => ?_, ihp.1⟩
        exact (ihp.2 _ hmem).1 (List.mem_append_right _ (by simp))
      · intro k hk
        rcases List.mem_cons.mp hk with rfl | hk2
        · exact hd
        · have hmem := ihp.2 k hk2
          exact ⟨fun hpk => hmem.1 (List.mem_append_left _ hpk), hmem.2⟩

theorem batchFilter_length (E : Finset (Nat × Nat)) (T : Option (List (Nat × Nat)))
    (dup : Bool) (acc : List (Nat × Nat)) :
    ∀ (elems : List ((Nat × Nat) × Nat)) (pk : List (Nat × Nat)),
      (batchFilter E T dup acc elems pk).1.length +
        (batchFilter E T dup acc elems pk).2.length = elems.length := by
  intro elems
  induction elems with
  | nil =>
    intro pk
    simp [batchFilter]
  | cons cs rest ih =>
    intro pk
    simp only [batchFilter]
    split
    · have hih := ih (pk ++ [pairing cs.1.1 cs.1.2])
      dsimp only
      simp only [List.length_cons]
      omega
    · have hih := ih (pk ++ [pairing cs.1.1 cs.1.2])
      dsimp only
      simp only [List.length_cons]
      omega

theorem samplingLoop_valid (E : Finset (Nat × Nat)) (T : Option (List (Nat × Nat)))
    (dup : Bool) (draw : Nat → List Nat → List (Nat × Nat)) (size : Nat) :
    ∀ (fuel n_iters : Nat) (acc : List (Nat × Nat)) (src : List Nat),
      (∀ k ∈ acc, k ∉ E ∧ (∀ tk, T = some tk → k ∉ tk) ∧ k.1 ≠ k.2 ∧ k.1 ≤ k.2) →
      ∀ k ∈ samplingLoop E T dup draw size n_iters fuel acc src,
        k ∉ E ∧ (∀ tk, T = some tk → k ∉ tk) ∧ k.1 ≠ k.2 ∧ k.1 ≤ k.2 := by
  intro fuel
  induction fuel with
  | zero =>
    intro n acc src hacc k hk
    simp only [samplingLoop] at hk
    exact hacc k hk
  | succ fuel ih =>
    intro n acc src hacc k hk
    simp only [samplingLoop] at hk
    split at hk
    · refine ih _ _ _ ?_ k hk
      intro k2 hk2
      rcases List.mem_append.mp hk2 with h2 | h2
      · exact hacc k2 h2
      · exact batchFilter_valid _ _ k2 h2
    · exact hacc k hk

theorem samplingLoop_nodup (E : Finset (Nat × Nat)) (T : Option (List (Nat × Nat)))
    (draw : Nat → List Nat → List (Nat × Nat)) (size : Nat) :
    ∀ (fuel n_iters : Nat) (acc : List (Nat × Nat)) (src : List Nat),
      acc.Nodup →
      (samplingLoop E T false draw size n_iters fuel acc src).Nodup := by
  intro fuel
  induction fuel with
  | zero =>
    intro n acc src hacc
    simpa only [samplingLoop] using hacc
  | succ fuel ih =>
    intro n acc src hacc
    simp only [samplingLoop]
    split
    · refine ih _ _ _ ?_
      rw [List.nodup_append]
      refine ⟨hacc, (batchFilter_nodup _ _).1, fun a ha hb => ?_⟩
      exact ((batchFilter_nodup _ _).2 a hb).2 ha
    · exact hacc

theorem samplingLoop_length_le (E : Finset (Nat × Nat)) (T : Option (List (Nat × Nat)))
    (dup : Bool) (draw : Nat → List Nat → List (Nat × Nat)) (size : Nat)
    (hdraw : ∀ i s, (draw i s).length = s.length) :
    ∀ (fuel n_iters : Nat) (acc : List (Nat × Nat)) (src : List Nat),
      acc.length + src.length = size →
      (samplingLoop E T dup draw size n_iters fuel acc src).length ≤ size := by
  intro fuel
  induction fuel with
  | zero =>
    intro n acc src hlen
    simp only [samplingLoop]
    omega
  | succ fuel ih =>
    intro n acc src hlen
    simp only [samplingLoop]
    split
    · refine ih _ _ _ ?_
      have hzip : ((draw n src).zip src).length = src.length := by
        simp [List.length_zip, hdraw n src]
      have hbatch := batchFilter_length E T dup acc ((draw n src).zip src) []
      rw [hzip] at hbatch
      simp only [List.length_append]
      omega
    · omega

/-! ## Claim theorems -/

/-- C2: for all node identifiers with `u ≠ v`, `depairing (pairing u v)` is
`(min u v, max u v)`, and for every `u` the self-loop key `pairing u u` differs
from `pairing a b` for every pair with `a ≠ b`: the codec round-trips over
canonical pairs and self-loop keys never collide with edge keys. -/
theorem codec_round_trip :
    (∀ u v : Nat, u ≠ v → depairing (pairing u v) = (min u v, max u v)) ∧
    (∀ u a b : Nat, a ≠ b → pairing u u ≠ pairing a b) := by
  constructor
  · intro u v _
    rfl
  · intro u a b hab heq
    have h1 : (pairing u u).1 = (pairing u u).2 := by simp [pairing]
    rw [heq] at h1
    exact pairing_fst_ne_snd hab h1

/-- C2 witness: the codec facts evaluated at `(1, 2)` and at the self-loop `0`. -/
theorem codec_round_trip_witness :
    (1 : Nat) ≠ 2 ∧ depairing (pairing 1 2) = (min 1 2, max 1 2) ∧
      pairing 0 0 ≠ pairing 1 2 :=
  ⟨by decide, codec_round_trip.1 1 2 (by decide), codec_round_trip.2 0 1 2 (by decide)⟩

/-- C7: `TrainTestEdgeSplitter.fit` fails with the infeasible-split error — whose
message names the `fraction` parameter — exactly when the number of removable
edges (edges outside the spanning tree) is strictly below the requested
test-edge count `floor(fraction * |E|)`; the `Except` result carries no split
in that case. -/
theorem infeasible_split (fraction : ℚ) (findA findMST : List (Nat × Nat))
    (test_choice : Finset (Nat × Nat)) :
    TrainTestEdgeSplitter.fit fraction findA findMST test_choice =
        Except.error splitErrorMsg ↔
      (edgeKeys findA \ edgeKeys findMST).card <
        (⌊fraction * ((edgeKeys findA).card : ℚ)⌋ : ℤ).toNat := by
  simp only [TrainTestEdgeSplitter.fit]
  split
  · simp_all
  · simp_all

/-- C9: when `sampling` is called without the parameter required by the current
`conditionedOnSource` mode, the entry validation constructs a `ValueError`
value but never raises it: the constructed-exception list is nonempty while
control still proceeds (`Except.ok`). -/
theorem entry_check_no_raise (conditionedOnSource : Bool) (sizeArg : Option Nat)
    (sourceNodesArg : Option (List Nat))
    (hmis : (conditionedOnSource = true ∧ sourceNodesArg = none) ∨
      (conditionedOnSource = false ∧ sizeArg = none)) :
    (samplingEntryCheck conditionedOnSource sizeArg sourceNodesArg).1 ≠ [] ∧
      (samplingEntryCheck conditionedOnSource sizeArg sourceNodesArg).2 =
        Except.ok () := by
  unfold samplingEntryCheck
  refine ⟨?_, rfl⟩
  rcases hmis with ⟨hc, hs⟩ | ⟨hc, hs⟩ <;> subst hc <;> simp [hs]

/-- C9 witness: `size=None` with `conditionedOnSource=False` constructs the
error value and proceeds. -/
theorem entry_check_no_raise_witness :
    ((false = true ∧ (none : Option (List Nat)) = none) ∨
      (false = false ∧ (none : Option Nat) = none)) ∧
    ((samplingEntryCheck false none none).1 ≠ [] ∧
      (samplingEntryCheck false none none).2 = Except.ok ()) :=
  ⟨Or.inr ⟨rfl, rfl⟩, entry_check_no_raise false none none (Or.inr ⟨rfl, rfl⟩)⟩

/-- C5: whenever `TrainTestEdgeSplitter.fit` succeeds, the train and test edge
sets are disjoint and their union is the full undirected edge set of the input
graph as enumerated through the codec.  The hypothesis on `test_choice` is the
`np.random.choice(remained_edge_set, ...)` contract: the draw is taken from
the removable set. -/
theorem split_partition (fraction : ℚ) (findA findMST : List (Nat × Nat))
    (test_choice : Finset (Nat × Nat)) (res : SplitResult)
    (hsub : test_choice ⊆ edgeKeys findA \ edgeKeys findMST)
    (hfit : TrainTestEdgeSplitter.fit fraction findA findMST test_choice = Except.ok res) :
    Disjoint res.train_edges_ res.test_edges_ ∧
      res.train_edges_ ∪ res.test_edges_ = edgeKeys findA := by
  obtain ⟨hT, hTr⟩ := fit_ok_elim hfit
  rw [hT, hTr]
  have htsub : test_choice ⊆ edgeKeys findA := hsub.trans (Finset.sdiff_subset)
  exact ⟨Finset.sdiff_disjoint, Finset.sdiff_union_of_subset htsub⟩

/-- C5 witness: the triangle graph with spanning tree `{01, 02}`, fraction
`1/3` and drawn test set `{(1,2)}`. -/
theorem split_partition_witness :
    (({(1, 2)} : Finset (Nat × Nat)) ⊆ edgeKeys wFindA \ edgeKeys wFindMST) ∧
    TrainTestEdgeSplitter.fit (1/3) wFindA wFindMST {(1, 2)} =
      Except.ok ⟨{(1, 2)}, {(0, 1), (0, 2)}⟩ ∧
    (Disjoint (SplitResult.train_edges_ ⟨{(1, 2)}, {(0, 1), (0, 2)}⟩)
        (SplitResult.test_edges_ ⟨{(1, 2)}, {(0, 1), (0, 2)}⟩) ∧
      SplitResult.train_edges_ ⟨{(1, 2)}, {(0, 1), (0, 2)}⟩ ∪
        SplitResult.test_edges_ ⟨{(1, 2)}, {(0, 1), (0, 2)}⟩ = edgeKeys wFindA) := by
  have hn : (⌊(1/3 : ℚ) * ((edgeKeys wFindA).card : ℚ)⌋ : ℤ).toNat = 1 := by
    rw [show (edgeKeys wFindA).card = 3 from by decide]
    norm_num
  have hfit : TrainTestEdgeSplitter.fit (1/3) wFindA wFindMST {(1, 2)} =
      Except.ok ⟨{(1, 2)}, {(0, 1), (0, 2)}⟩ := by
    rw [fit_eq_of_floor (1/3) wFindA wFindMST {(1, 2)} 1 hn, if_neg (by decide)]
    rw [Except.ok.injEq]
    decide
  have hsub : (({(1, 2)} : Finset (Nat × Nat)) ⊆ edgeKeys wFindA \ edgeKeys wFindMST) := by
    decide
  exact ⟨hsub, hfit, split_partition (1/3) wFindA wFindMST {(1, 2)} _ hsub hfit⟩

/-- C8: on success with a fraction in `(0,1)`, the test set has exactly
`floor(fraction * |E|)` elements and the train set the remaining
`|E| - floor(fraction * |E|)`.  The cardinality hypothesis on `test_choice` is
the contract of `np.random.choice(..., n_edge_removal, replace=False)`. -/
theorem split_size (fraction : ℚ) (findA findMST : List (Nat × Nat))
    (test_choice : Finset (Nat × Nat)) (res : SplitResult)
    (_h0 : 0 < fraction) (_h1 : fraction < 1)
    (hsub : test_choice ⊆ edgeKeys findA \ edgeKeys findMST)
    (hcard : test_choice.card = (⌊fraction * ((edgeKeys findA).card : ℚ)⌋ : ℤ).toNat)
    (hfit : TrainTestEdgeSplitter.fit fraction findA findMST test_choice = Except.ok res) :
    res.test_edges_.card = (⌊fraction * ((edgeKeys findA).card : ℚ)⌋ : ℤ).toNat ∧
      res.train_edges_.card =
        (edgeKeys findA).card - (⌊fraction * ((edgeKeys findA).card : ℚ)⌋ : ℤ).toNat := by
  obtain ⟨hT, hTr⟩ := fit_ok_elim hfit
  have htsub : test_choice ⊆ edgeKeys findA := hsub.trans (Finset.sdiff_subset)
  rw [hT, hTr, Finset.card_sdiff htsub, hcard]
  exact ⟨rfl, rfl⟩

/-- C8 witness: the triangle graph at fraction `1/3`: one test edge,
two train edges. -/
theorem split_size_witness :
    (0 : ℚ) < 1/3 ∧ (1/3 : ℚ) < 1 ∧
    (({(1, 2)} : Finset (Nat × Nat)) ⊆ edgeKeys wFindA \ edgeKeys wFindMST) ∧
    ({(1, 2)} : Finset (Nat × Nat)).card =
      (⌊(1/3 : ℚ) * ((edgeKeys wFindA).card : ℚ)⌋ : ℤ).toNat ∧
    TrainTestEdgeSplitter.fit (1/3) wFindA wFindMST {(1, 2)} =
      Except.ok ⟨{(1, 2)}, {(0, 1), (0, 2)}⟩ ∧
    ((SplitResult.test_edges_ ⟨{(1, 2)}, {(0, 1), (0, 2)}⟩).card =
        (⌊(1/3 : ℚ) * ((edgeKeys wFindA).card : ℚ)⌋ : ℤ).toNat ∧
      (SplitResult.train_edges_ ⟨{(1, 2)}, {(0, 1), (0, 2)}⟩).card =
        (edgeKeys wFindA).card -
          (⌊(1/3 : ℚ) * ((edgeKeys wFindA).card : ℚ)⌋ : ℤ).toNat) := by
  have hn : (⌊(1/3 : ℚ) * ((edgeKeys wFindA).card : ℚ)⌋ : ℤ).toNat = 1 := by
    rw [show (edgeKeys wFindA).card = 3 from by decide]
    norm_num
  have hfit : TrainTestEdgeSplitter.fit (1/3) wFindA wFindMST {(1, 2)} =
      Except.ok ⟨{(1, 2)}, {(0, 1), (0, 2)}⟩ := by
    rw [fit_eq_of_floor (1/3) wFindA wFindMST {(1, 2)} 1 hn, if_neg (by decide)]
    rw [Except.ok.injEq]
    decide
  have hsub : (({(1, 2)} : Finset (Nat × Nat)) ⊆ edgeKeys wFindA \ edgeKeys wFindMST) := by
    decide
  have hcard : ({(1, 2)} : Finset (Nat × Nat)).card =
      (⌊(1/3 : ℚ) * ((edgeKeys wFindA).card : ℚ)⌋ : ℤ).toNat := by
    rw [hn]
    decide
  exact ⟨by norm_num, by norm_num, hsub, hcard, hfit,
    split_size (1/3) wFindA wFindMST {(1, 2)} _ (by norm_num) (by norm_num) hsub hcard hfit⟩

/-- C1: for a connected input graph and a successful `fit`, the train-edge
subgraph has one connected component covering every node incident to a train
edge; equivalently, reachability in the train subgraph coincides with
reachability in the input graph, because every removed edge lies outside the
spanning tree.  `hspan` is the `csgraph.minimum_spanning_tree` contract (the
tree spans every component) and `hmstsub` records that the tree edges are
edges of `A + A.T`. -/
theorem split_connectivity (fraction : ℚ) (findA findMST : List (Nat × Nat))
    (test_choice : Finset (Nat × Nat)) (res : SplitResult)
    (hmstsub : edgeKeys findMST ⊆ edgeKeys findA)
    (hspan : ∀ p ∈ edgeKeys findA, Reachable (edgeKeys findMST) p.1 p.2)
    (hsub : test_choice ⊆ edgeKeys findA \ edgeKeys findMST)
    (hfit : TrainTestEdgeSplitter.fit fraction findA findMST test_choice = Except.ok res) :
    (∀ u v, Reachable (edgeKeys findA) u v ↔ Reachable res.train_edges_ u v) ∧
      ((∀ u v, IncidentTo (edgeKeys findA) u → IncidentTo (edgeKeys findA) v →
          Reachable (edgeKeys findA) u v) →
        ∀ u v, IncidentTo res.train_edges_ u → IncidentTo res.train_edges_ v →
          Reachable res.train_edges_ u v) := by
  obtain ⟨hT, hTr⟩ := fit_ok_elim hfit
  have htrain_sub : res.train_edges_ ⊆ edgeKeys findA := by
    rw [hTr]
    exact Finset.sdiff_subset
  have hmst_train : edgeKeys findMST ⊆ res.train_edges_ := by
    rw [hTr]
    intro x hx
    refine Finset.mem_sdiff.mpr ⟨hmstsub hx, fun hxt => ?_⟩
    exact (Finset.mem_sdiff.mp (hsub hxt)).2 hx
  have hiff : ∀ u v, Reachable (edgeKeys findA) u v ↔ Reachable res.train_edges_ u v := by
    intro u v
    constructor
    · intro h
      exact reachable_mono hmst_train (reachable_of_spanning hspan h)
    · exact reachable_mono htrain_sub
  refine ⟨hiff, fun hconn u v hu hv => ?_⟩
  obtain ⟨wu, hwu⟩ := hu
  obtain ⟨wv, hwv⟩ := hv
  exact (hiff u v).mp
    (hconn u v ⟨wu, adjacent_mono htrain_sub hwu⟩ ⟨wv, adjacent_mono htrain_sub hwv⟩)

/-- C1 witness: the triangle graph with spanning tree `{01, 02}` and test edge
`(1,2)`; the spanning hypothesis is discharged by explicit reachability
chains. -/
theorem split_connectivity_witness :
    (edgeKeys wFindMST ⊆ edgeKeys wFindA) ∧
    (∀ p ∈ edgeKeys wFindA, Reachable (edgeKeys wFindMST) p.1 p.2) ∧
    (({(1, 2)} : Finset (Nat × Nat)) ⊆ edgeKeys wFindA \ edgeKeys wFindMST) ∧
    TrainTestEdgeSplitter.fit (1/3) wFindA wFindMST {(1, 2)} =
      Except.ok ⟨{(1, 2)}, {(0, 1), (0, 2)}⟩ ∧
    ((∀ u v, Reachable (edgeKeys wFindA) u v ↔
        Reachable (SplitResult.train_edges_ ⟨{(1, 2)}, {(0, 1), (0, 2)}⟩) u v) ∧
      ((∀ u v, IncidentTo (edgeKeys wFindA) u → IncidentTo (edgeKeys wFindA) v →
          Reachable (edgeKeys wFindA) u v) →
        ∀ u v, IncidentTo (SplitResult.train_edges_ ⟨{(1, 2)}, {(0, 1), (0, 2)}⟩) u →
          IncidentTo (SplitResult.train_edges_ ⟨{(1, 2)}, {(0, 1), (0, 2)}⟩) v →
          Reachable (SplitResult.train_edges_ ⟨{(1, 2)}, {(0, 1), (0, 2)}⟩) u v)) := by
  have h01 : Reachable (edgeKeys wFindMST) 0 1 :=
    Relation.ReflTransGen.single (Or.inl (by decide))
  have h02 : Reachable (edgeKeys wFindMST) 0 2 :=
    Relation.ReflTransGen.single (Or.inl (by decide))
  have hspan : ∀ p ∈ edgeKeys wFindA, Reachable (edgeKeys wFindMST) p.1 p.2 := by
    intro p hp
    rw [show edgeKeys wFindA = {(0, 1), (0, 2), (1, 2)} from by decide] at hp
    fin_cases hp
    · exact h01
    · exact h02
    · exact (reachable_symm h01).trans h02
  have hmstsub : edgeKeys wFindMST ⊆ edgeKeys wFindA := by decide
  have hsub : (({(1, 2)} : Finset (Nat × Nat)) ⊆ edgeKeys wFindA \ edgeKeys wFindMST) := by
    decide
  have hn : (⌊(1/3 : ℚ) * ((edgeKeys wFindA).card : ℚ)⌋ : ℤ).toNat = 1 := by
    rw [show (edgeKeys wFindA).card = 3 from by decide]
    norm_num
  have hfit : TrainTestEdgeSplitter.fit (1/3) wFindA wFindMST {(1, 2)} =
      Except.ok ⟨{(1, 2)}, {(0, 1), (0, 2)}⟩ := by
    rw [fit_eq_of_floor (1/3) wFindA wFindMST {(1, 2)} 1 hn, if_neg (by decide)]
    rw [Except.ok.injEq]
    decide
  exact ⟨hmstsub, hspan, hsub, hfit,
    split_connectivity (1/3) wFindA wFindMST {(1, 2)} _ hmstsub hspan hsub hfit⟩

/-- C3: every pair returned by a successful `sampling` call is a valid
negative: not a self loop, its canonical key is not among the fitted edge
keys, and not among the supplied test-edge keys; this includes the pairs added
by the retry-exhaustion padding, which are copies of accepted pairs
(hypothesis `hpad` is the `np.random.choice(len, ...)` contract that the drawn
indices are below `len`). -/
theorem negative_validity (E : Finset (Nat × Nat)) (dup : Bool) (size : Nat)
    (test_edges : Option (List (Nat × Nat))) (source_nodes : List Nat)
    (draw : Nat → List Nat → List (Nat × Nat)) (padIds : Nat → Nat → List Nat)
    (hpad : ∀ len cnt i, i ∈ padIds len cnt → i < len)
    (res : List (Nat × Nat))
    (hres : NegativeEdgeSampler.sampling E dup size test_edges source_nodes draw padIds =
      some res) :
    ∀ p ∈ res, p.1 ≠ p.2 ∧ pairing p.1 p.2 ∉ E ∧
      ∀ tl, test_edges = some tl →
        pairing p.1 p.2 ∉ tl.map fun q => pairing q.1 q.2 := by
  have hval := samplingLoop_valid E (testEdgeKeys test_edges) dup draw size
    30 0 [] source_nodes (by simp)
  set acc := samplingLoop E (testEdgeKeys test_edges) dup draw size 0 30 [] source_nodes
    with hacc
  have hmem : ∀ p ∈ res, p ∈ acc := by
    intro p hp
    simp only [NegativeEdgeSampler.sampling, ← hacc] at hres
    split at hres
    · split at hres
      · exact absurd hres (by simp)
      · next hne =>
        obtain rfl := Option.some.inj hres
        rcases List.mem_append.mp hp with h2 | h2
        · exact h2
        · obtain ⟨i, hi, hgd⟩ := List.mem_map.mp h2
          have hilt : i < acc.length := hpad _ _ i hi
          rw [← hgd, List.getD_eq_getElem acc (0, 0) hilt]
          exact List.getElem_mem hilt
    · obtain rfl := Option.some.inj hres
      exact hp
  intro p hp
  obtain ⟨hE, hT, hne, hle⟩ := hval p (hmem p hp)
  rw [pairing_of_canonical hle]
  refine ⟨hne, hE, fun tl htl => ?_⟩
  exact hT (tl.map fun q => pairing q.1 q.2) (by simp [testEdgeKeys, htl])

/-- C3 witness: a sampler fitted on the single edge `{(0,1)}`, with held-out
test edge `(3,4)`; the accepted negative is the canonical pair `(1,2)` of the
drawn candidate `(2,1)`. -/
theorem negative_validity_witness :
    (∀ len cnt i, i ∈ (fun (_ : Nat) (_ : Nat) => ([] : List Nat)) len cnt → i < len) ∧
    NegativeEdgeSampler.sampling {(0, 1)} false 1 (some [(3, 4)]) [0]
        (fun _ s => s.map fun _ => (2, 1)) (fun _ _ => []) = some [(1, 2)] ∧
    (∀ p ∈ [((1 : Nat), (2 : Nat))], p.1 ≠ p.2 ∧ pairing p.1 p.2 ∉ ({(0, 1)} : Finset (Nat × Nat)) ∧
      ∀ tl, (some [((3 : Nat), (4 : Nat))] : Option (List (Nat × Nat))) = some tl →
        pairing p.1 p.2 ∉ tl.map fun q => pairing q.1 q.2) := by
  have hpad : ∀ len cnt i, i ∈ (fun (_ : Nat) (_ : Nat) => ([] : List Nat)) len cnt →
      i < len := by
    simp
  have hres : NegativeEdgeSampler.sampling {(0, 1)} false 1 (some [(3, 4)]) [0]
      (fun _ s => s.map fun _ => (2, 1)) (fun _ _ => []) = some [(1, 2)] := by decide
  exact ⟨hpad, hres,
    negative_validity {(0, 1)} false 1 (some [(3, 4)]) [0]
      (fun _ s => s.map fun _ => (2, 1)) (fun _ _ => []) hpad [(1, 2)] hres⟩

/-- C4 counterexample: with an external pair source that only ever proposes
self loops, the 30 rounds accept nothing, and `sampling(size=1)` reaches
`np.random.choice(0, size=1)`, which raises — the call fails instead of
returning one pair, refuting the claim for the zero-accepted case. -/
theorem negative_count_counterexample :
    NegativeEdgeSampler.sampling ∅ false 1 none [0]
      (fun _ _ => [(0, 0)]) (fun _ _ => []) = none := by
  decide

/-- C4 amended: under the node-pair-source and `np.random.choice` contracts,
a successful `sampling(size=k)` call returns exactly `k` pairs, and the call
fails precisely when the 30 rounds accept zero candidates while `k ≥ 1` (the
padding path cannot cover the zero-accepted case). -/
theorem negative_count_amended (E : Finset (Nat × Nat)) (dup : Bool) (size : Nat)
    (test_edges : Option (List (Nat × Nat))) (source_nodes : List Nat)
    (draw : Nat → List Nat → List (Nat × Nat)) (padIds : Nat → Nat → List Nat)
    (hdraw : ∀ i s, (draw i s).length = s.length)
    (hsrc : source_nodes.length = size)
    (hpadlen : ∀ len cnt, (padIds len cnt).length = cnt) :
    (∀ res, NegativeEdgeSampler.sampling E dup size test_edges source_nodes draw padIds =
        some res → res.length = size) ∧
    (NegativeEdgeSampler.sampling E dup size test_edges source_nodes draw padIds = none ↔
      samplingLoop E (testEdgeKeys test_edges) dup draw size 0 30 [] source_nodes = [] ∧
        0 < size) := by
  have hle := samplingLoop_length_le E (testEdgeKeys test_edges) dup draw size
    hdraw 30 0 [] source_nodes (by simpa using hsrc)
  set acc := samplingLoop E (testEdgeKeys test_edges) dup draw size 0 30 [] source_nodes
    with hacc
  constructor
  · intro res hres
    simp only [NegativeEdgeSampler.sampling, ← hacc] at hres
    split at hres
    · split at hres
      · exact absurd hres (by simp)
      · next hlt hne =>
        obtain rfl := Option.some.inj hres
        simp only [List.length_append, List.length_map, hpadlen]
        omega
    · next hge =>
      obtain rfl := Option.some.inj hres
      omega
  · simp only [NegativeEdgeSampler.sampling, ← hacc]
    split
    · split
      · next hlt hz =>
        simp only [true_iff]
        exact ⟨List.length_eq_zero.mp hz, by omega⟩
      · next hlt hz =>
        simp only [reduceCtorEq, false_iff, not_and]
        intro habs
        exact absurd (by rw [habs]; rfl) hz
    · next hge =>
      simp only [reduceCtorEq, false_iff, not_and]
      intro habs
      rw [habs] at hge
      simp only [List.length_nil] at hge
      omega

/-- C4 witness for the amended statement: a run that accepts one candidate and
pads the second slot by duplicating it — the call succeeds and returns exactly
`size = 2` pairs. -/
theorem negative_count_amended_witness :
    (∀ i s, ((fun (_ : Nat) (s : List Nat) =>
        s.map fun x => if x = 5 then (1, 2) else (x, x)) i s).length = s.length) ∧
    ([5, 6] : List Nat).length = 2 ∧
    (∀ len cnt, ((fun (_ : Nat) (cnt : Nat) => List.replicate cnt 0) len cnt).length = cnt) ∧
    ((∀ res, NegativeEdgeSampler.sampling ∅ false 2 none [5, 6]
        (fun _ s => s.map fun x => if x = 5 then (1, 2) else (x, x))
        (fun _ cnt => List.replicate cnt 0) = some res → res.length = 2) ∧
      (NegativeEdgeSampler.sampling ∅ false 2 none [5, 6]
          (fun _ s => s.map fun x => if x = 5 then (1, 2) else (x, x))
          (fun _ cnt => List.replicate cnt 0) = none ↔
        samplingLoop ∅ (testEdgeKeys none) false
            (fun _ s => s.map fun x => if x = 5 then (1, 2) else (x, x)) 2 0 30 [] [5, 6] =
          [] ∧ 0 < 2)) := by
  refine ⟨by simp, rfl, by simp, ?_⟩
  exact negative_count_amended ∅ false 2 none [5, 6]
    (fun _ s => s.map fun x => if x = 5 then (1, 2) else (x, x))
    (fun _ cnt => List.replicate cnt 0) (by simp) rfl (by simp)

/-- C6: with `duplicated_negative_edges=False` and a run in which the retry
loop reaches `size` accepted candidates within the 30 rounds (so no padding
happens), `sampling` returns those candidates and they are pairwise distinct
as unordered pairs (their canonical keys all differ). -/
theorem negative_uniqueness (E : Finset (Nat × Nat)) (size : Nat)
    (test_edges : Option (List (Nat × Nat))) (source_nodes : List Nat)
    (draw : Nat → List Nat → List (Nat × Nat)) (padIds : Nat → Nat → List Nat)
    (hfull : size ≤
      (samplingLoop E (testEdgeKeys test_edges) false draw size 0 30 [] source_nodes).length) :
    NegativeEdgeSampler.sampling E false size test_edges source_nodes draw padIds =
      some (samplingLoop E (testEdgeKeys test_edges) false draw size 0 30 [] source_nodes) ∧
    List.Pairwise (fun p q => pairing p.1 p.2 ≠ pairing q.1 q.2)
      (samplingLoop E (testEdgeKeys test_edges) false draw size 0 30 [] source_nodes) := by
  have hval := samplingLoop_valid E (testEdgeKeys test_edges) false draw size
    30 0 [] source_nodes (by simp)
  set acc := samplingLoop E (testEdgeKeys test_edges) false draw size 0 30 [] source_nodes
    with hacc
  have hnd : acc.Nodup :=
    samplingLoop_nodup E (testEdgeKeys test_edges) draw size 30 0 [] source_nodes
      List.nodup_nil
  constructor
  · simp only [NegativeEdgeSampler.sampling, ← hacc]
    rw [if_neg (by omega)]
  · refine List.Pairwise.imp_of_mem ?_ hnd
    intro p q hp hq hne
    rw [pairing_of_canonical (hval p hp).2.2.2, pairing_of_canonical (hval q hq).2.2.2]
    exact hne

/-- C6 witness: two distinct candidates accepted in the first round; the
returned pairs are distinct as unordered pairs. -/
theorem negative_uniqueness_witness :
    2 ≤ (samplingLoop ∅ (testEdgeKeys none) false
        (fun _ s => s.map fun x => (x, x + 1)) 2 0 30 [] [5, 6]).length ∧
    (NegativeEdgeSampler.sampling ∅ false 2 none [5, 6]
        (fun _ s => s.map fun x => (x, x + 1)) (fun _ _ => []) =
      some (samplingLoop ∅ (testEdgeKeys none) false
        (fun _ s => s.map fun x => (x, x + 1)) 2 0 30 [] [5, 6]) ∧
    List.Pairwise (fun p q => pairing p.1 p.2 ≠ pairing q.1 q.2)
      (samplingLoop ∅ (testEdgeKeys none) false
        (fun _ s => s.map fun x => (x, x + 1)) 2 0 30 [] [5, 6])) := by
  have hfull : 2 ≤ (samplingLoop ∅ (testEdgeKeys none) false
      (fun _ s => s.map fun x => (x, x + 1)) 2 0 30 [] [5, 6]).length := by decide
  exact ⟨hfull, negative_uniqueness ∅ 2 none [5, 6]
    (fun _ s => s.map fun x => (x, x + 1)) (fun _ _ => []) hfull⟩

/-- C10: every pair emitted at the public interface is canonically ordered
with `src ≤ trg`: the train and test edge lists of the splitter and the
negatives returned by the sampler all arise by depairing canonical keys. -/
theorem canonical_ordering :
    (∀ (fraction : ℚ) (findA findMST : List (Nat × Nat))
        (test_choice : Finset (Nat × Nat)) (res : SplitResult),
      test_choice ⊆ edgeKeys findA →
      TrainTestEdgeSplitter.fit fraction findA findMST test_choice = Except.ok res →
      (∀ p ∈ res.train_edges_, p.1 ≤ p.2) ∧ ∀ p ∈ res.test_edges_, p.1 ≤ p.2) ∧
    (∀ (E : Finset (Nat × Nat)) (dup : Bool) (size : Nat)
        (test_edges : Option (List (Nat × Nat))) (source_nodes : List Nat)
        (draw : Nat → List Nat → List (Nat × Nat)) (padIds : Nat → Nat → List Nat)
        (res : List (Nat × Nat)),
      NegativeEdgeSampler.sampling E dup size test_edges source_nodes draw padIds =
        some res →
      ∀ p ∈ res, p.1 ≤ p.2) := by
  constructor
  · intro fraction findA findMST test_choice res hsub hfit
    obtain ⟨hT, hTr⟩ := fit_ok_elim hfit
    constructor
    · intro p hp
      rw [hTr] at hp
      exact mem_edgeKeys_canonical (Finset.mem_sdiff.mp hp).1
    · intro p hp
      rw [hT] at hp
      exact mem_edgeKeys_canonical (hsub hp)
  · intro E dup size test_edges source_nodes draw padIds res hres
    have hval := samplingLoop_valid E (testEdgeKeys test_edges) dup draw size
      30 0 [] source_nodes (by simp)
    set acc := samplingLoop E (testEdgeKeys test_edges) dup draw size 0 30 [] source_nodes
      with hacc
    intro p hp
    simp only [NegativeEdgeSampler.sampling, ← hacc] at hres
    split at hres
    · split at hres
      · exact absurd hres (by simp)
      · obtain rfl := Option.some.inj hres
        rcases List.mem_append.mp hp with h2 | h2
        · exact (hval p h2).2.2.2
        · obtain ⟨i, _, hgd⟩ := List.mem_map.mp h2
          rcases Nat.lt_or_ge i acc.length with hilt | hige
          · rw [← hgd, List.getD_eq_getElem acc (0, 0) hilt]
            exact (hval _ (List.getElem_mem hilt)).2.2.2
          · rw [← hgd, List.getD_eq_default acc (0, 0) hige]
    · obtain rfl := Option.some.inj hres
      exact (hval p hp).2.2.2

/-- C10 witness: the triangle split instance and a concrete sampler run, all
emitted pairs canonically ordered. -/
theorem canonical_ordering_witness :
    (({(1, 2)} : Finset (Nat × Nat)) ⊆ edgeKeys wFindA) ∧
    TrainTestEdgeSplitter.fit (1/3) wFindA wFindMST {(1, 2)} =
      Except.ok ⟨{(1, 2)}, {(0, 1), (0, 2)}⟩ ∧
    ((∀ p ∈ SplitResult.train_edges_ ⟨{(1, 2)}, {(0, 1), (0, 2)}⟩, p.1 ≤ p.2) ∧
      ∀ p ∈ SplitResult.test_edges_ ⟨{(1, 2)}, {(0, 1), (0, 2)}⟩, p.1 ≤ p.2) ∧
    NegativeEdgeSampler.sampling {(0, 1)} false 1 none [0]
        (fun _ s => s.map fun _ => (2, 1)) (fun _ _ => []) = some [(1, 2)] ∧
    (∀ p ∈ [((1 : Nat), (2 : Nat))], p.1 ≤ p.2) := by
  have hsub : (({(1, 2)} : Finset (Nat × Nat)) ⊆ edgeKeys wFindA) := by decide
  have hn : (⌊(1/3 : ℚ) * ((edgeKeys wFindA).card : ℚ)⌋ : ℤ).toNat = 1 := by
    rw [show (edgeKeys wFindA).card = 3 from by decide]
    norm_num
  have hfit : TrainTestEdgeSplitter.fit (1/3) wFindA wFindMST {(1, 2)} =
      Except.ok ⟨{(1, 2)}, {(0, 1), (0, 2)}⟩ := by
    rw [fit_eq_of_floor (1/3) wFindA wFindMST {(1, 2)} 1 hn, if_neg (by decide)]
    rw [Except.ok.injEq]
    decide
  have hres : NegativeEdgeSampler.sampling {(0, 1)} false 1 none [0]
      (fun _ s => s.map fun _ => (2, 1)) (fun _ _ => []) = some [(1, 2)] := by decide
  exact ⟨hsub, hfit,
    canonical_ordering.1 (1/3) wFindA wFindMST {(1, 2)} _ hsub hfit, hres,
    canonical_ordering.2 {(0, 1)} false 1 none [0]
      (fun _ s => s.map fun _ => (2, 1)) (fun _ _ => []) [(1, 2)] hres⟩

end GnnTools
